import Mathlib

/-!
# Verification of the Gantt-chart hierarchy/layout engine

Shallow embedding of the hierarchy-reconstruction and rendering-layout code of
the Gantt chart component:

* `DataverseService.transformRecord`        (src/unnamed/part_001)
* `GanttChart.fixHierarchyIssues`,
  `GanttChart.createDynamicHierarchy`,
  `GanttChart.sortTasksRespectingHierarchy` (src/GanntViewer/GanttChart.tsx)
* `ImprovedGanttChart.deduplicateTasks`,
  `buildHierarchy`, `flattenHierarchy`, `toggleExpand`,
  `calculateTaskPosition`, `generateHierarchyCacheKey` (src/unnamed/part_002)

Modelling conventions:

* JavaScript `Date` values are embedded as `Int` milliseconds since the epoch
  (`Date.getTime()`); JS `number` arithmetic is embedded over `ℚ`.
* Optional fields of the `TaskData` interface are `Option` values; plain
  booleans collapse `undefined` to `false` where the code only tests them.
* JS truthiness is modelled explicitly: for strings, `undefined` and `""` are
  falsy; for numbers, `0` is falsy.  The `jsOr…` helpers embed the JS `||`
  operator with these rules.
* The recursive tree walks in the source (`buildTaskHierarchy`,
  `collapseDescendants`, `addTaskAndChildren`) recurse without a termination
  guard; they are embedded with an explicit fuel argument that is large enough
  to reproduce the source behaviour on every input on which the source
  terminates (acyclic parent graphs).
-/

/-- `taskPhase` enumeration of `types.ts`. -/
inductive TaskPhase where
  | initiation
  | planning
  | selection
  | execution
  | closure
deriving DecidableEq, Repr

/-- `dependencyType` enumeration of `types.ts`. -/
inductive DependencyType where
  | startToStart
  | finishToStart
  | finishToFinish
  | startToFinish
deriving DecidableEq, Repr

/-- The `TaskData` interface of `types.ts`.  Dates are `Int` epoch
milliseconds, `progress` is a rational in `[0,1]`.  `isSummaryTask` and
`isMilestone` are collapsed from `boolean | undefined` to `Bool` (the code
only ever tests their truthiness). -/
structure TaskData where
  taskWBS : Option String := none
  taskNumber : String := ""
  taskDataId : String
  taskName : String := ""
  taskPhase : Option TaskPhase := none
  startDate : Int := 0
  finishDate : Int := 0
  projectId : String := ""
  projectUID : String := ""
  dependencyType : Option DependencyType := none
  successor : Option String := none
  successorUID : Option String := none
  duration : Option Int := none
  isSummaryTask : Bool := false
  isMilestone : Bool := false
  parentTask : Option String := none
  taskIndex : Option Int := none
  progress : Option ℚ := none
deriving DecidableEq, Repr

/-! ## JavaScript value helpers -/

/-- JS truthiness of an optional string: `undefined` and `""` are falsy. -/
def strTruthy : Option String → Bool
  | none => false
  | some s => !(s == "")

/-- JS `a || b` where `a` is an optional string and `b` a string. -/
def jsOrS (a : Option String) (b : String) : String :=
  match a with
  | some s => if s = "" then b else s
  | none => b

/-- JS `a || b` for two optional strings (the value of `b` is returned as-is
when `a` is falsy, exactly as in JS). -/
def jsOrOS (a b : Option String) : Option String :=
  match a with
  | some s => if s = "" then b else some s
  | none => b

/-- JS `a || b` where `a` is an optional number and `b` a number (0 falsy). -/
def jsOrI (a : Option Int) (b : Int) : Int :=
  match a with
  | some x => if x = 0 then b else x
  | none => b

/-- JS `a || b` for two optional numbers (0 falsy). -/
def jsOrOI (a b : Option Int) : Option Int :=
  match a with
  | some x => if x = 0 then b else some x
  | none => b

/-- JS `a || b` for two optional rational numbers (0 falsy). -/
def jsOrOQ (a b : Option ℚ) : Option ℚ :=
  match a with
  | some x => if x = 0 then b else some x
  | none => b

/-- JS `a || b` where `a` is an optional rational and `b` a rational. -/
def jsOrQ (a : Option ℚ) (b : ℚ) : ℚ :=
  match a with
  | some x => if x = 0 then b else x
  | none => b

/-- `Math.round`: round half towards positive infinity. -/
def jsRound (q : ℚ) : Int := ⌊q + 1/2⌋

/-- `Math.min(...)` over a spread array; callers in the source only apply it
to non-empty arrays (`Math.min()` of nothing is `Infinity`, unrepresentable;
`0` is a junk value for the unused empty case). -/
def jsMinList : List Int → Int
  | [] => 0
  | x :: xs => xs.foldl min x

/-- `Math.max(...)` over a spread array (see `jsMinList`). -/
def jsMaxList : List Int → Int
  | [] => 0
  | x :: xs => xs.foldl max x

/-- `new Set(list)` materialised in insertion order: keeps the first
occurrence of every element. -/
def jsSetOfList (l : List String) : List String :=
  l.foldl (fun acc x => if x ∈ acc then acc else acc ++ [x]) []

/-- `String.prototype.split(' ')` over the character list. -/
def splitOnSpaceAux : List Char → List Char → List (List Char)
  | [], acc => [acc.reverse]
  | c :: rest, acc =>
    if c = ' ' then acc.reverse :: splitOnSpaceAux rest []
    else splitOnSpaceAux rest (c :: acc)

/-- `s.split(' ')`. -/
def jsSplitSpace (s : String) : List String :=
  (splitOnSpaceAux s.data []).map fun l => String.mk l

/-- `Array.prototype.join(' ')`. -/
def joinSpace : List String → String
  | [] => ""
  | [s] => s
  | s :: rest => s ++ " " ++ joinSpace rest

/-- `Array.prototype.join('|')` (used by the cache keys). -/
def joinPipe : List String → String
  | [] => ""
  | [s] => s
  | s :: rest => s ++ "|" ++ joinPipe rest

/-- `s.toLowerCase()` (code-point-wise idealisation). -/
def lowerStr (s : String) : String := String.mk (s.data.map Char.toLower)

/-- `hay.includes(needle)` at the character-list level. -/
def containsSub (needle : List Char) : List Char → Bool
  | [] => needle.isEmpty
  | hay@(_ :: t) => needle.isPrefixOf hay || containsSub needle t

/-! ## `GanttChart.fixHierarchyIssues` (src/GanntViewer/GanttChart.tsx) -/

/-- `tasks.some(t => t.parentTask === id)`: does `id` have at least one child
in `tasks`? -/
def hasChildB (tasks : List TaskData) (id : String) : Bool :=
  tasks.any fun t => t.parentTask = some id

/-- `GanttChart.createDynamicHierarchy`: return the tasks as-is with
`isSummaryTask` recomputed from the parent relation; no grouping. -/
def createDynamicHierarchy (tasks : List TaskData) : List TaskData :=
  tasks.map fun task => { task with isSummaryTask := hasChildB tasks task.taskDataId }

/-- `new Set(tasks.filter(t => t.parentTask).map(t => t.parentTask!))`. -/
def referencedParentIds (tasks : List TaskData) : List String :=
  jsSetOfList ((tasks.filter fun t => strTruthy t.parentTask).filterMap fun t => t.parentTask)

/-- `Array.from(referencedParentIds).filter(pid => !existingTaskIds.has(pid))`. -/
def missingParentIds (tasks : List TaskData) : List String :=
  (referencedParentIds tasks).filter fun pid => ¬ ∃ t ∈ tasks, t.taskDataId = pid

/-- Parent-name inference of `fixHierarchyIssues` (first-child heuristic with
a generic fallback). -/
def inferParentName (children : List TaskData) (index : ℕ) : String :=
  match children with
  | [] => "Parent Group " ++ toString (index + 1)
  | firstChild :: _ =>
    let words := jsSplitSpace firstChild.taskName
    if 1 < words.length then joinSpace (words.take 2) ++ " Group"
    else firstChild.taskName ++ " Group"

/-- The placeholder summary task synthesised by `fixHierarchyIssues` for a
missing parent id (`missingParentIds.map((parentId, index) => {...})`). -/
def mkMissingParent (tasks : List TaskData) (pid : String) (index : ℕ) : TaskData :=
  let children := tasks.filter fun t => t.parentTask = some pid
  let parentTaskIndex := jsMinList (children.map fun t => jsOrI t.taskIndex 999999)
  let parentStart := jsMinList (children.map fun t => t.startDate)
  let parentEnd := jsMaxList (children.map fun t => t.finishDate)
  { taskWBS := none
    taskNumber := "P" ++ toString parentTaskIndex
    taskDataId := pid
    taskName := inferParentName children index
    taskPhase := match children with | [] => some TaskPhase.planning | c :: _ => c.taskPhase
    startDate := parentStart
    finishDate := parentEnd
    projectId := match children with | [] => "Default-Project" | c :: _ => c.projectId
    projectUID := match children with | [] => "default-project-uid" | c :: _ => c.projectUID
    dependencyType := none
    successor := none
    successorUID := none
    duration := some (jsRound (((parentEnd - parentStart : Int) : ℚ) / (1000 * 60 * 60 * 24)))
    isSummaryTask := true
    parentTask := none
    taskIndex := some parentTaskIndex
    progress := some ((children.map fun t => jsOrQ t.progress 0).sum / (children.length : ℚ)) }

/-- The `updatedTasks` mapping step of `fixHierarchyIssues`: mark a task
that has children (and is not already marked) as a summary task. -/
def markSummary (tasks : List TaskData) (task : TaskData) : TaskData :=
  if hasChildB tasks task.taskDataId && !task.isSummaryTask then
    { task with isSummaryTask := true }
  else task

/-- The `createdParents` array of `fixHierarchyIssues`: one synthesised
placeholder per missing parent id. -/
def createdParents (tasks : List TaskData) : List TaskData :=
  (missingParentIds tasks).enum.map fun p => mkMissingParent tasks p.2 p.1

/-- `GanttChart.fixHierarchyIssues`: synthesise missing parents and mark
tasks that have children as summary tasks; with no (truthy) parent
relationships at all, fall through to `createDynamicHierarchy`. -/
def fixHierarchyIssues (tasks : List TaskData) : List TaskData :=
  if (tasks.filter fun t => strTruthy t.parentTask).length = 0 then
    createDynamicHierarchy tasks
  else
    createdParents tasks ++ tasks.map (markSummary tasks)

/-! ## `DataverseService.transformRecord` (src/unnamed/part_001)

A raw Dataverse record is embedded as a structure of optional, already-typed
fields (the source receives an `any`-typed object and probes these exact
property names).  Date-valued raw fields are epoch milliseconds; numeric raw
fields are rationals. -/

/-- Raw Dataverse record shape probed by `transformRecord`.  The field
`successorNav` stands for the navigation property `_pme_successor_value` and
`projectidNav` for `_pme_projectid_value`. -/
structure RawRecord where
  pme_taskdataid : Option String := none
  id : Option String := none
  pme_taskwbs : Option String := none
  taskwbs : Option String := none
  pme_taskname : Option String := none
  pme_name : Option String := none
  name : Option String := none
  pme_parenttaskuid : Option String := none
  parenttaskuid : Option String := none
  pme_parenttask : Option String := none
  successorNav : Option String := none
  pme_successor : Option String := none
  successor : Option String := none
  pme_successoruid : Option String := none
  successorUID : Option String := none
  pme_dependencytype : Option Int := none
  dependencyType : Option Int := none
  pme_startdate : Option Int := none
  StartDate : Option Int := none
  pme_finishdate : Option Int := none
  FinishDate : Option Int := none
  pme_duration : Option ℚ := none
  Duration : Option ℚ := none
  pme_percentcomplete : Option ℚ := none
  PercentComplete : Option ℚ := none
  pme_issummarytask : Option Bool := none
  pme_ismilestone : Option Bool := none
  pme_taskindex : Option Int := none
  taskindex : Option Int := none
  pme_tasknumber : Option String := none
  pme_projectuid : Option String := none
  projectuid : Option String := none
  projectidNav : Option String := none
  pme_projectid : Option String := none
deriving DecidableEq, Repr

/-- `DataverseService.parseDate` on an already-parsed millisecond value:
`!dateValue` rejects `undefined` and the falsy `0`.  (Unparseable date
strings, which the source also maps to `null`, are outside the model.) -/
def parseDate (v : Option Int) : Option Int :=
  match v with
  | none => none
  | some x => if x = 0 then none else some x

/-- `DataverseService.parseDuration`: default 1 day, at least 1 day,
rounded. -/
def parseDuration (v : Option ℚ) : Int :=
  match v with
  | none => 1
  | some q => if q ≤ 0 then 1 else max 1 (jsRound q)

/-- `DataverseService.parsePercentComplete`: clamp to `[0,100]`, then
divide by 100. -/
def parsePercentComplete (v : Option ℚ) : ℚ :=
  match v with
  | none => 0
  | some q => max 0 (min 100 q) / 100

/-- `DataverseService.calculateDuration` (in days, `Math.ceil`, at least 1). -/
def calculateDuration (startDate endDate : Int) : Int :=
  max 1 ⌈((endDate - startDate : Int) : ℚ) / (1000 * 3600 * 24)⌉

/-- `DataverseService.mapDependencyType` (`0` is falsy → `undefined`). -/
def mapDependencyType (v : Option Int) : Option DependencyType :=
  match v with
  | none => none
  | some c =>
    if c = 0 then none
    else if c = 1 then some DependencyType.finishToStart
    else if c = 2 then some DependencyType.startToStart
    else if c = 3 then some DependencyType.finishToFinish
    else if c = 4 then some DependencyType.startToFinish
    else some DependencyType.finishToStart

/-- `getLookupValue(record, 'pme_successor')`: navigation property first,
then the direct field; only `undefined`/`null` fall through (`""` does not). -/
def getLookupSuccessor (r : RawRecord) : Option String :=
  match r.successorNav with
  | some v => some v
  | none => r.pme_successor

/-- `getLookupValue(record, 'pme_projectid')`. -/
def getLookupProjectId (r : RawRecord) : Option String :=
  match r.projectidNav with
  | some v => some v
  | none => r.pme_projectid

/-- The parent-name indicator table of `hasPotentialChildren`. -/
def parentIndicators : List String :=
  ["timeline", "project", "csf", "submission", "section", "phase",
   "stage", "group", "module", "package", "bundle", "category",
   "milestone", "gate", "studies", "tech section"]

/-- `DataverseService.hasPotentialChildren`. -/
def hasPotentialChildren (r : RawRecord) : Bool :=
  let taskName := jsOrS r.name (jsOrS r.pme_taskname "")
  parentIndicators.any fun ind => containsSub (lowerStr ind).data (lowerStr taskName).data

/-- `DataverseService.transformRecord` (src/unnamed/part_001, lines 244-333).
`now` is the clock value read by the `new Date()` default for missing start
dates.  Note the circular-reference prevention: a raw parent reference equal
to the task's own id is dropped. -/
def transformRecord (record : RawRecord) (index : ℕ) (now : Int) : TaskData :=
  let taskId := jsOrS record.pme_taskdataid (jsOrS record.id ("task-" ++ toString index))
  let taskWBS := jsOrS record.pme_taskwbs (jsOrS record.taskwbs (toString (index + 1)))
  let taskName := jsOrS record.pme_taskname
    (jsOrS record.pme_name (jsOrS record.name ("Task " ++ toString (index + 1))))
  let rawParentTask := jsOrOS record.pme_parenttaskuid
    (jsOrOS record.parenttaskuid record.pme_parenttask)
  let parentTask := if rawParentTask = some taskId then none else rawParentTask
  let successor := jsOrOS (getLookupSuccessor record) record.successor
  let successorUID := jsOrOS record.pme_successoruid record.successorUID
  let dependencyTypeRaw := jsOrOI record.pme_dependencytype record.dependencyType
  let startDate := (parseDate (jsOrOI record.pme_startdate record.StartDate)).getD now
  let finishDate := (parseDate (jsOrOI record.pme_finishdate record.FinishDate)).getD
    (startDate + 14 * 24 * 60 * 60 * 1000)
  let durationParsed := parseDuration (jsOrOQ record.pme_duration record.Duration)
  let duration := if durationParsed = 0 then calculateDuration startDate finishDate
    else durationParsed
  let progress := parsePercentComplete
    (jsOrOQ record.pme_percentcomplete record.PercentComplete)
  let isSummaryTask :=
    match record.pme_issummarytask with
    | some true => true
    | _ => hasPotentialChildren record
  let isMilestone := record.pme_ismilestone = some true
  let taskIndex := jsOrI record.pme_taskindex (jsOrI record.taskindex (index : Int))
  { taskWBS := some taskWBS
    taskNumber := jsOrS record.pme_tasknumber (toString (index + 1))
    taskDataId := taskId
    taskName := taskName
    taskPhase := none
    startDate := startDate
    finishDate := finishDate
    projectId := jsOrS record.pme_projectuid
      (jsOrS record.projectuid (jsOrS (getLookupProjectId record) "Project-001"))
    projectUID := jsOrS record.pme_projectuid ("project-uid-" ++ taskId)
    dependencyType := mapDependencyType dependencyTypeRaw
    successor := successor
    successorUID := successorUID
    duration := some duration
    isSummaryTask := isSummaryTask
    isMilestone := isMilestone
    parentTask := parentTask
    taskIndex := some taskIndex
    progress := some progress }

/-- The `response.entities.map((record, index) => transformRecord(record,
globalIndex))` stage of `fetchTaskData` on an initial load (where the global
index equals the position in the page). -/
def transformTasks (records : List RawRecord) (now : Int) : List TaskData :=
  records.enum.map fun p => transformRecord p.2 p.1 now

/-! ## `GanttChart.sortTasksRespectingHierarchy` (src/GanntViewer/GanttChart.tsx) -/

/-- `String.prototype.localeCompare` idealised as code-point lexicographic
comparison returning -1/0/1. -/
def charListCompare : List Char → List Char → Int
  | [], [] => 0
  | [], _ :: _ => -1
  | _ :: _, [] => 1
  | c :: cs, d :: ds =>
    if c.toNat < d.toNat then -1
    else if d.toNat < c.toNat then 1
    else charListCompare cs ds

/-- `a.localeCompare(b)` (code-point idealisation of the locale order). -/
def localeCompare (a b : String) : Int := charListCompare a.data b.data

/-- The sibling comparator of `sortTasksRespectingHierarchy`:
`taskIndex` difference when both sides define one, else
`taskDataId.localeCompare`. -/
def cmpTasks (a b : TaskData) : Int :=
  match a.taskIndex, b.taskIndex with
  | some i, some j => i - j
  | _, _ => localeCompare a.taskDataId b.taskDataId

/-- The comparator as a boolean "less or equal" relation; `Array.sort` with a
comparator is a stable sort with respect to this relation, embedded below
with the (stable) `List.mergeSort`. -/
def taskLeB (a b : TaskData) : Bool := cmpTasks a b ≤ 0

/-- The per-parent child list of `sortTasksRespectingHierarchy`: the
`childrenMap` only registers tasks with a truthy `parentTask`, grouped in
input order and then sorted by the comparator. -/
def sortedChildrenOf (tasks : List TaskData) (pid : String) : List TaskData :=
  (tasks.filter fun t => strTruthy t.parentTask && t.parentTask = some pid).mergeSort taskLeB

/-- `addTaskAndChildren`: emit the task, then recursively its sorted
children.  The source recursion is unbounded; `fuel` bounds the depth and is
sufficient for every acyclic input. -/
def addTaskAndChildren (tasks : List TaskData) : ℕ → TaskData → List TaskData
  | 0, t => [t]
  | n + 1, t =>
    t :: ((sortedChildrenOf tasks t.taskDataId).map (addTaskAndChildren tasks n)).flatten

/-- `GanttChart.sortTasksRespectingHierarchy`: sorted roots, each followed by
its recursively sorted subtree. -/
def sortTasksRespectingHierarchy (tasks : List TaskData) : List TaskData :=
  let rootTasks := (tasks.filter fun t => !strTruthy t.parentTask).mergeSort taskLeB
  (rootTasks.map (addTaskAndChildren tasks (tasks.length + 1))).flatten


/-! ## `ImprovedGanttChart` (src/unnamed/part_002) -/

/-- `ImprovedGanttChart.deduplicateTasks`: keep the first occurrence of every
`taskDataId` (Map insertion semantics), preserving order. -/
def deduplicateTasks (tasks : List TaskData) : List TaskData :=
  tasks.foldl (fun acc t => if acc.any (fun u => u.taskDataId = t.taskDataId) then acc else acc ++ [t]) []

/-- The `TaskHierarchy` interface of src/unnamed/part_002. -/
inductive Hier where
  | mk (task : TaskData) (level : ℕ) (children : List Hier) (isVisible : Bool)

/-- The `task` field of a `TaskHierarchy` node. -/
def Hier.task : Hier → TaskData
  | .mk t _ _ _ => t

/-- The `level` field of a `TaskHierarchy` node. -/
def Hier.level : Hier → ℕ
  | .mk _ lvl _ _ => lvl

/-- The `children` field of a `TaskHierarchy` node. -/
def Hier.children : Hier → List Hier
  | .mk _ _ cs _ => cs

/-- The inner `buildTaskHierarchy(task, level)` closure of
`ImprovedGanttChart.buildHierarchy`: children are the tasks whose
`parentTask` strictly equals this task's id.  The source recursion is
unbounded; `fuel` bounds the depth and is sufficient for every input on
which the source terminates. -/
def buildTaskHierarchy (uniq : List TaskData) : ℕ → TaskData → ℕ → Hier
  | 0, t, lvl => Hier.mk t lvl [] true
  | n + 1, t, lvl =>
    Hier.mk t lvl
      ((uniq.filter fun c => c.parentTask = some t.taskDataId).map fun c =>
        buildTaskHierarchy uniq n c (lvl + 1))
      true

/-- `ImprovedGanttChart.buildHierarchy` (pure computation; the instance-level
cache wrapper is modelled with `generateHierarchyCacheKey` below):
deduplicate, take the tasks with a falsy `parentTask` as roots, and build
each root's subtree. -/
def buildHierarchy (tasks : List TaskData) : List Hier :=
  let uniqueTasks := deduplicateTasks tasks
  let rootTasks := uniqueTasks.filter fun t => !strTruthy t.parentTask
  rootTasks.map fun t => buildTaskHierarchy uniqueTasks (uniqueTasks.length + 1) t 0

mutual
/-- The `traverse` closure of `ImprovedGanttChart.flattenHierarchy`: always
emit the node, then its children exactly when the node's id is in the
expansion set and it has children. -/
def flattenOne (exp : Finset String) : Hier → List Hier
  | .mk t lvl cs vis =>
    .mk t lvl cs vis :: (if t.taskDataId ∈ exp ∧ 0 < cs.length then flattenMany exp cs else [])
/-- `hierarchies.forEach(h => traverse(h))`: flatten a forest. -/
def flattenMany (exp : Finset String) : List Hier → List Hier
  | [] => []
  | h :: hs => flattenOne exp h ++ flattenMany exp hs
end

/-- The parent-child edge relation read by `toggleExpand`'s
`collapseDescendants` (over the raw `this.props.tasks`):
`childOf tasks p c` holds when some task with id `c` stores parent `p`. -/
def childOf (tasks : List TaskData) (p c : String) : Prop :=
  ∃ t ∈ tasks, t.parentTask = some p ∧ t.taskDataId = c

/-- The `collapseDescendants` closure of `toggleExpand`: delete each child's
id from the expansion set and recurse into it.  The source recursion is
unbounded; `fuel` bounds the depth. -/
def collapseDescendants (tasks : List TaskData) : ℕ → String → Finset String → Finset String
  | 0, _, exp => exp
  | n + 1, pid, exp =>
    (tasks.filter fun t => t.parentTask = some pid).foldl
      (fun e c => collapseDescendants tasks n c.taskDataId (e.erase c.taskDataId)) exp

/-- `ImprovedGanttChart.toggleExpand` (the new expansion set it installs):
collapsing removes the id and, recursively, every descendant id; expanding
adds just the id. -/
def toggleExpand (tasks : List TaskData) (exp : Finset String) (taskId : String) : Finset String :=
  if taskId ∈ exp then collapseDescendants tasks (tasks.length + 1) taskId (exp.erase taskId)
  else insert taskId exp

/-- `ImprovedGanttChart.calculateTaskPosition` (the pure geometry shared by
both copies in src/unnamed/part_002): returns `(left, width)` in pixels for
the given timeline bounds (epoch ms) and total timeline width. -/
def calculateTaskPosition (task : TaskData) (timelineStart timelineEnd : Int)
    (timelineWidth : ℚ) : ℚ × ℚ :=
  let totalDuration : ℚ := ((timelineEnd : ℚ) - (timelineStart : ℚ))
  let taskStart : ℚ := (task.startDate : ℚ) - (timelineStart : ℚ)
  let taskDuration : ℚ := (task.finishDate : ℚ) - (task.startDate : ℚ)
  (taskStart / totalDuration * timelineWidth,
   max (taskDuration / totalDuration * timelineWidth) 20)

/-- The unclamped bar width (before the 20px floor) of
`calculateTaskPosition`. -/
def unclampedWidth (task : TaskData) (timelineStart timelineEnd : Int)
    (timelineWidth : ℚ) : ℚ :=
  ((task.finishDate : ℚ) - (task.startDate : ℚ))
    / ((timelineEnd : ℚ) - (timelineStart : ℚ)) * timelineWidth

/-- `ImprovedGanttChart.generateHierarchyCacheKey`:
`tasks.length + '_' + ids.join('|') + '_' + sortedExpandedIds.join('|')`.
`expandedSorted` stands for `Array.from(this.state.expandedTasks).sort()`. -/
def generateHierarchyCacheKey (tasks : List TaskData) (expandedSorted : List String) : String :=
  toString tasks.length ++ "_" ++ joinPipe (tasks.map fun t => t.taskDataId)
    ++ "_" ++ joinPipe expandedSorted

/-! ## Helper lemmas about the hierarchy builder -/

theorem markSummary_eq (tasks : List TaskData) (u : TaskData) :
    markSummary tasks u
      = { u with isSummaryTask := u.isSummaryTask || hasChildB tasks u.taskDataId } := by
  obtain ⟨wbs, num, tid, nm, ph, sd, fd, pid, puid, dep, suc, sucU, dur, isSum, isMil, par, tidx, prog⟩ := u
  unfold markSummary
  cases isSum <;> cases hc : hasChildB tasks tid <;> simp [hc]

theorem mem_createDynamicHierarchy {tasks : List TaskData} {t : TaskData} :
    t ∈ createDynamicHierarchy tasks
      ↔ ∃ u ∈ tasks, t = { u with isSummaryTask := hasChildB tasks u.taskDataId } := by
  simp [createDynamicHierarchy, eq_comm]

theorem fix_eq_of_no_parents {tasks : List TaskData}
    (h : (tasks.filter fun t => strTruthy t.parentTask).length = 0) :
    fixHierarchyIssues tasks = createDynamicHierarchy tasks := by
  simp [fixHierarchyIssues, h]

theorem fix_eq_of_parents {tasks : List TaskData}
    (h : (tasks.filter fun t => strTruthy t.parentTask).length ≠ 0) :
    fixHierarchyIssues tasks = createdParents tasks ++ tasks.map (markSummary tasks) := by
  simp [fixHierarchyIssues, h]

theorem mem_jsSetOfList {l : List String} {x : String} : x ∈ jsSetOfList l ↔ x ∈ l := by
  have aux : ∀ (l : List String) (acc : List String),
      x ∈ l.foldl (fun acc x => if x ∈ acc then acc else acc ++ [x]) acc
        ↔ x ∈ acc ∨ x ∈ l := by
    intro l
    induction l with
    | nil => simp
    | cons a l ih =>
      intro acc
      rw [List.foldl_cons, ih]
      by_cases ha : a ∈ acc
      · simp only [ha, if_true, List.mem_cons]
        constructor
        · rintro (h | h)
          · exact Or.inl h
          · exact Or.inr (Or.inr h)
        · rintro (h | rfl | h)
          · exact Or.inl h
          · exact Or.inl ha
          · exact Or.inr h
      · simp only [ha, if_false, List.mem_append, List.mem_singleton, List.mem_cons]
        tauto
  rw [jsSetOfList, aux]
  simp

theorem nodup_jsSetOfList (l : List String) : (jsSetOfList l).Nodup := by
  have aux : ∀ (l : List String) (acc : List String), acc.Nodup →
      (l.foldl (fun acc x => if x ∈ acc then acc else acc ++ [x]) acc).Nodup := by
    intro l
    induction l with
    | nil => exact fun acc h => h
    | cons a l ih =>
      intro acc hacc
      rw [List.foldl_cons]
      by_cases ha : a ∈ acc
      · simpa [ha] using ih acc hacc
      · refine ih _ ?_
        simp only [ha, if_false]
        exact List.Nodup.append hacc (List.nodup_singleton a)
          (by simpa [List.disjoint_singleton] using ha)
  exact aux l [] List.nodup_nil

theorem mem_referencedParentIds {tasks : List TaskData} {pid : String} :
    pid ∈ referencedParentIds tasks
      ↔ ∃ t ∈ tasks, strTruthy t.parentTask ∧ t.parentTask = some pid := by
  simp [referencedParentIds, mem_jsSetOfList, List.mem_filterMap, List.mem_filter, and_assoc]

theorem mem_missingParentIds {tasks : List TaskData} {pid : String} :
    pid ∈ missingParentIds tasks
      ↔ (∃ t ∈ tasks, strTruthy t.parentTask ∧ t.parentTask = some pid)
          ∧ ∀ t ∈ tasks, t.taskDataId ≠ pid := by
  simp [missingParentIds, List.mem_filter, mem_referencedParentIds]

theorem nodup_missingParentIds (tasks : List TaskData) : (missingParentIds tasks).Nodup :=
  (nodup_jsSetOfList _).filter _

theorem mem_createdParents {tasks : List TaskData} {t : TaskData} :
    t ∈ createdParents tasks
      ↔ ∃ i pid, (i, pid) ∈ (missingParentIds tasks).enum
          ∧ t = mkMissingParent tasks pid i := by
  simp [createdParents, eq_comm]

theorem mkMissingParent_taskDataId (tasks : List TaskData) (pid : String) (i : ℕ) :
    (mkMissingParent tasks pid i).taskDataId = pid := rfl

theorem mkMissingParent_parentTask (tasks : List TaskData) (pid : String) (i : ℕ) :
    (mkMissingParent tasks pid i).parentTask = none := rfl

theorem mkMissingParent_isSummaryTask (tasks : List TaskData) (pid : String) (i : ℕ) :
    (mkMissingParent tasks pid i).isSummaryTask = true := rfl

theorem mem_enumFrom_of_mem {α : Type} {x : α} {l : List α} (h : x ∈ l) :
    ∀ k, ∃ i, (i, x) ∈ l.enumFrom k := by
  induction l with
  | nil => cases h
  | cons a l ih =>
    intro k
    rcases List.mem_cons.mp h with rfl | h
    · exact ⟨k, by simp [List.enumFrom]⟩
    · obtain ⟨i, hi⟩ := ih h (k + 1)
      exact ⟨i, by simp [List.enumFrom, hi]⟩

theorem mem_enum_of_mem {α : Type} {x : α} {l : List α} (h : x ∈ l) :
    ∃ i, (i, x) ∈ l.enum :=
  mem_enumFrom_of_mem h 0

/-- The parent pointer and id of every builder-output task either come
unchanged from some input task, or the task is a synthesised root. -/
theorem fix_parent_shape {tasks : List TaskData} {t : TaskData}
    (ht : t ∈ fixHierarchyIssues tasks) :
    t.parentTask = none
      ∨ ∃ u ∈ tasks, t.parentTask = u.parentTask ∧ t.taskDataId = u.taskDataId := by
  by_cases h : (tasks.filter fun t => strTruthy t.parentTask).length = 0
  · rw [fix_eq_of_no_parents h] at ht
    obtain ⟨u, hu, rfl⟩ := mem_createDynamicHierarchy.mp ht
    exact Or.inr ⟨u, hu, rfl, rfl⟩
  · rw [fix_eq_of_parents h] at ht
    rcases List.mem_append.mp ht with ht | ht
    · obtain ⟨i, pid, _, rfl⟩ := mem_createdParents.mp ht
      exact Or.inl rfl
    · obtain ⟨u, hu, rfl⟩ := List.mem_map.mp ht
      rw [markSummary_eq]
      exact Or.inr ⟨u, hu, rfl, rfl⟩

/-- The circular-reference prevention of `transformRecord`: the produced
parent pointer never equals the produced task id. -/
theorem transformRecord_no_self (r : RawRecord) (i : ℕ) (now : Int) :
    (transformRecord r i now).parentTask ≠ some (transformRecord r i now).taskDataId := by
  simp only [transformRecord]
  split <;> simp_all

/-- **C3.**  For every task in the builder's output (over any transformed
raw-record list, in either repair branch), `parentTask` differs from the
task's own `taskDataId`: a self-referential raw parent reference is dropped
by `transformRecord` (treated as "no parent", not reported as an error), and
`fixHierarchyIssues` never reintroduces one. -/
theorem claim_C3_no_self_parent (now : Int) (records : List RawRecord) :
    ∀ t ∈ fixHierarchyIssues (transformTasks records now),
      t.parentTask ≠ some t.taskDataId := by
  intro t ht
  rcases fix_parent_shape ht with h | ⟨u, hu, hp, hid⟩
  · simp [h]
  · rw [hp, hid]
    obtain ⟨p, _, heq⟩ := List.mem_map.mp hu
    rw [← heq]
    exact transformRecord_no_self p.2 p.1 now

/-- **C2 (amended).**  The builder sets `isSummaryTask` to `true` for every
task that has at least one child in the working set.  When at least one task
carries a (truthy) parent reference, the stored flag is only upgraded — a
stored `true` survives even with no children; only in the no-parents branch
is the flag recomputed from scratch. -/
theorem claim_C2_isSummary_recompute (tasks : List TaskData) :
    (∀ u ∈ tasks,
        { u with isSummaryTask :=
            if (tasks.filter fun t => strTruthy t.parentTask).length = 0 then
              hasChildB tasks u.taskDataId
            else u.isSummaryTask || hasChildB tasks u.taskDataId }
          ∈ fixHierarchyIssues tasks)
    ∧ ∀ t ∈ fixHierarchyIssues tasks,
        hasChildB tasks t.taskDataId = true → t.isSummaryTask = true := by
  constructor
  · intro u hu
    by_cases h : (tasks.filter fun t => strTruthy t.parentTask).length = 0
    · rw [fix_eq_of_no_parents h, if_pos h]
      exact mem_createDynamicHierarchy.mpr ⟨u, hu, rfl⟩
    · rw [fix_eq_of_parents h, if_neg h]
      refine List.mem_append.mpr (Or.inr (List.mem_map.mpr ⟨u, hu, ?_⟩))
      rw [markSummary_eq]
  · intro t ht hc
    by_cases h : (tasks.filter fun t => strTruthy t.parentTask).length = 0
    · rw [fix_eq_of_no_parents h] at ht
      obtain ⟨u, hu, rfl⟩ := mem_createDynamicHierarchy.mp ht
      simpa using hc
    · rw [fix_eq_of_parents h] at ht
      rcases List.mem_append.mp ht with ht | ht
      · obtain ⟨i, pid, _, rfl⟩ := mem_createdParents.mp ht
        rfl
      · obtain ⟨u, hu, rfl⟩ := List.mem_map.mp ht
        rw [markSummary_eq] at hc ⊢
        simp only at hc ⊢
        simp [hc]

/-- A stored `isSummaryTask = true` on a childless task (counterexample input
for C2's "overwriting" clause). -/
def cexStoredSummary : TaskData := { taskDataId := "x", isSummaryTask := true }

/-- A child task referencing the existing parent id `"z"`. -/
def cexChildOfZ : TaskData := { taskDataId := "y", parentTask := some "z" }

/-- The parent task with id `"z"`. -/
def cexParentZ : TaskData := { taskDataId := "z" }

/-- **C2 counterexample.**  With some parent relationship present, a stored
`isSummaryTask = true` on a task that has no children is NOT cleared: the
output contains the task still flagged as a summary although no output task
references it as parent, contradicting `isSummary == (∃ child)`. -/
theorem claim_C2_counterexample :
    cexStoredSummary ∈ fixHierarchyIssues [cexStoredSummary, cexChildOfZ, cexParentZ]
    ∧ cexStoredSummary.isSummaryTask = true
    ∧ ¬ ∃ t ∈ fixHierarchyIssues [cexStoredSummary, cexChildOfZ, cexParentZ],
        t.parentTask = some cexStoredSummary.taskDataId :=
  ⟨by decide, rfl, by decide⟩

/-- **C4 (amended).**  If zero tasks have a (truthy) `parentTask`, the
builder performs no name-pattern grouping at all: it returns the input tasks
unchanged except that `isSummaryTask` is recomputed from the (empty) parent
relation, and every task remains a flat root. -/
theorem claim_C4_no_pattern_fallback (tasks : List TaskData)
    (h : (tasks.filter fun t => strTruthy t.parentTask).length = 0) :
    fixHierarchyIssues tasks
        = tasks.map (fun u => { u with isSummaryTask := hasChildB tasks u.taskDataId })
      ∧ ∀ t ∈ fixHierarchyIssues tasks, strTruthy t.parentTask = false := by
  constructor
  · rw [fix_eq_of_no_parents h]; rfl
  · intro t ht
    rw [fix_eq_of_no_parents h] at ht
    obtain ⟨u, hu, rfl⟩ := mem_createDynamicHierarchy.mp ht
    have hnil : ∀ a ∈ tasks, ¬ strTruthy a.parentTask = true := by
      rw [← List.filter_eq_nil_iff]
      exact List.length_eq_zero.mp h
    simpa using hnil u hu

/-- A task whose name matches typical grouping keywords ("phase"). -/
def c4PlanningTask : TaskData := { taskDataId := "p1", taskName := "Planning phase" }

/-- A second pattern-matching task name. -/
def c4ExecutionTask : TaskData := { taskDataId := "p2", taskName := "Execution phase" }

/-- **C4 counterexample.**  Two parent-less tasks whose names would match any
phase-keyword grouping rule are returned as-is: no synthesized category task
appears (the output ids are exactly the input ids) and both remain flat
roots, so no name-pattern fallback is applied. -/
theorem claim_C4_counterexample :
    fixHierarchyIssues [c4PlanningTask, c4ExecutionTask]
        = [{ c4PlanningTask with isSummaryTask := false },
           { c4ExecutionTask with isSummaryTask := false }]
      ∧ (fixHierarchyIssues [c4PlanningTask, c4ExecutionTask]).map (fun t => t.taskDataId)
          = ["p1", "p2"]
      ∧ ∀ t ∈ fixHierarchyIssues [c4PlanningTask, c4ExecutionTask], t.parentTask = none :=
  ⟨by decide, by decide, by decide⟩

/-- A lone parent-less task used as the C4 witness input. -/
def c4Lone : TaskData := { taskDataId := "w", taskName := "Module alpha" }

/-- Witness for `claim_C4_no_pattern_fallback` at a concrete input. -/
theorem claim_C4_witness :
    fixHierarchyIssues [c4Lone]
      = [c4Lone].map (fun u => { u with isSummaryTask := hasChildB [c4Lone] u.taskDataId }) :=
  (claim_C4_no_pattern_fallback [c4Lone] (by decide)).1

/-! ## Minimum/maximum facts for the synthesised parent dates -/

theorem foldl_min_choice : ∀ (xs : List Int) (a : Int),
    xs.foldl min a = a ∨ xs.foldl min a ∈ xs := by
  intro xs
  induction xs with
  | nil => exact fun a => Or.inl rfl
  | cons x xs ih =>
    intro a
    rw [List.foldl_cons]
    rcases ih (min a x) with h | h
    · rcases min_choice a x with hm | hm
      · exact Or.inl (by rw [h, hm])
      · exact Or.inr (by rw [h, hm]; exact List.mem_cons_self x xs)
    · exact Or.inr (List.mem_cons_of_mem x h)

theorem foldl_min_le_init : ∀ (xs : List Int) (a : Int), xs.foldl min a ≤ a := by
  intro xs
  induction xs with
  | nil => exact fun a => le_refl a
  | cons x xs ih =>
    intro a
    rw [List.foldl_cons]
    exact le_trans (ih (min a x)) (min_le_left a x)

theorem foldl_min_le_mem : ∀ (xs : List Int) (a x : Int), x ∈ xs → xs.foldl min a ≤ x := by
  intro xs
  induction xs with
  | nil => intro a x hx; cases hx
  | cons y xs ih =>
    intro a x hx
    rw [List.foldl_cons]
    rcases List.mem_cons.mp hx with rfl | hx
    · exact le_trans (foldl_min_le_init xs (min a x)) (min_le_right a x)
    · exact ih (min a y) x hx

theorem jsMinList_mem {l : List Int} (h : l ≠ []) : jsMinList l ∈ l := by
  cases l with
  | nil => exact absurd rfl h
  | cons x xs =>
    rcases foldl_min_choice xs x with hc | hc
    · rw [jsMinList, hc]; exact List.mem_cons_self x xs
    · rw [jsMinList]; exact List.mem_cons_of_mem x hc

theorem jsMinList_le {l : List Int} {x : Int} (hx : x ∈ l) : jsMinList l ≤ x := by
  cases l with
  | nil => cases hx
  | cons y ys =>
    rcases List.mem_cons.mp hx with rfl | hx
    · exact foldl_min_le_init ys x
    · exact foldl_min_le_mem ys y x hx

theorem foldl_max_choice : ∀ (xs : List Int) (a : Int),
    xs.foldl max a = a ∨ xs.foldl max a ∈ xs := by
  intro xs
  induction xs with
  | nil => exact fun a => Or.inl rfl
  | cons x xs ih =>
    intro a
    rw [List.foldl_cons]
    rcases ih (max a x) with h | h
    · rcases max_choice a x with hm | hm
      · exact Or.inl (by rw [h, hm])
      · exact Or.inr (by rw [h, hm]; exact List.mem_cons_self x xs)
    · exact Or.inr (List.mem_cons_of_mem x h)

theorem foldl_max_ge_init : ∀ (xs : List Int) (a : Int), a ≤ xs.foldl max a := by
  intro xs
  induction xs with
  | nil => exact fun a => le_refl a
  | cons x xs ih =>
    intro a
    rw [List.foldl_cons]
    exact le_trans (le_max_left a x) (ih (max a x))

theorem foldl_max_ge_mem : ∀ (xs : List Int) (a x : Int), x ∈ xs → x ≤ xs.foldl max a := by
  intro xs
  induction xs with
  | nil => intro a x hx; cases hx
  | cons y xs ih =>
    intro a x hx
    rw [List.foldl_cons]
    rcases List.mem_cons.mp hx with rfl | hx
    · exact le_trans (le_max_right a x) (foldl_max_ge_init xs (max a x))
    · exact ih (max a y) x hx

theorem jsMaxList_mem {l : List Int} (h : l ≠ []) : jsMaxList l ∈ l := by
  cases l with
  | nil => exact absurd rfl h
  | cons x xs =>
    rcases foldl_max_choice xs x with hc | hc
    · rw [jsMaxList, hc]; exact List.mem_cons_self x xs
    · rw [jsMaxList]; exact List.mem_cons_of_mem x hc

theorem jsMaxList_ge {l : List Int} {x : Int} (hx : x ∈ l) : x ≤ jsMaxList l := by
  cases l with
  | nil => cases hx
  | cons y ys =>
    rcases List.mem_cons.mp hx with rfl | hx
    · exact foldl_max_ge_init ys x
    · exact foldl_max_ge_mem ys y x hx

/-- The synthesised placeholder does not depend on its position in the
missing-id array once it has at least one child (the index is only used for
the generic fallback name of a childless placeholder). -/
theorem mkMissingParent_index_irrel {tasks : List TaskData} {pid : String}
    (h : (tasks.filter fun t => t.parentTask = some pid) ≠ []) (i j : ℕ) :
    mkMissingParent tasks pid i = mkMissingParent tasks pid j := by
  unfold mkMissingParent
  cases hch : tasks.filter fun t => t.parentTask = some pid with
  | nil => exact absurd hch h
  | cons c cs => simp [hch, inferParentName]

/-- **C1 (amended).**  For every missing (referenced but absent) parent id
the builder synthesises exactly one placeholder summary task with that id:
its start date is the minimum child start, its finish date the maximum child
finish, its progress the unweighted mean of the children's progress, it is
marked as a summary task and becomes a root (`parentTask = none`).  The
referencing child tasks remain in the output with every field unchanged
except `isSummaryTask`, which is upgraded to `true` for any child that
itself has children. -/
theorem claim_C1_missing_parent_synthesis (tasks : List TaskData) (pid : String)
    (hpid : pid ∈ missingParentIds tasks) :
    ∃ t ∈ fixHierarchyIssues tasks,
      t.taskDataId = pid
      ∧ t.isSummaryTask = true
      ∧ t.parentTask = none
      ∧ t.startDate ∈ (tasks.filter fun c => c.parentTask = some pid).map (fun c => c.startDate)
      ∧ (∀ c ∈ tasks.filter fun c => c.parentTask = some pid, t.startDate ≤ c.startDate)
      ∧ t.finishDate ∈ (tasks.filter fun c => c.parentTask = some pid).map (fun c => c.finishDate)
      ∧ (∀ c ∈ tasks.filter fun c => c.parentTask = some pid, c.finishDate ≤ t.finishDate)
      ∧ t.progress = some
          (((tasks.filter fun c => c.parentTask = some pid).map fun c => jsOrQ c.progress 0).sum
            / (((tasks.filter fun c => c.parentTask = some pid).length : ℚ)))
      ∧ (∀ t' ∈ fixHierarchyIssues tasks, t'.taskDataId = pid → t' = t)
      ∧ ∀ u ∈ tasks, u.parentTask = some pid →
          { u with isSummaryTask := u.isSummaryTask || hasChildB tasks u.taskDataId }
            ∈ fixHierarchyIssues tasks := by
  obtain ⟨⟨w, hw, hwt, hwp⟩, hnone⟩ := mem_missingParentIds.mp hpid
  have hwchild : w ∈ tasks.filter fun c => c.parentTask = some pid :=
    List.mem_filter.mpr ⟨hw, by simp [hwp]⟩
  have hchildne : (tasks.filter fun c => c.parentTask = some pid) ≠ [] :=
    List.ne_nil_of_mem hwchild
  have hbranch : (tasks.filter fun t => strTruthy t.parentTask).length ≠ 0 := by
    intro hzero
    have := (List.filter_eq_nil_iff.mp (List.length_eq_zero.mp hzero)) w hw
    exact this (by simpa using hwt)
  obtain ⟨i, hi⟩ := mem_enum_of_mem hpid
  refine ⟨mkMissingParent tasks pid i, ?_, rfl, rfl, rfl, ?_, ?_, ?_, ?_, rfl, ?_, ?_⟩
  · rw [fix_eq_of_parents hbranch]
    exact List.mem_append.mpr (Or.inl (mem_createdParents.mpr ⟨i, pid, hi, rfl⟩))
  · exact jsMinList_mem (by simpa using hchildne)
  · intro c hc
    exact jsMinList_le (List.mem_map.mpr ⟨c, hc, rfl⟩)
  · exact jsMaxList_mem (by simpa using hchildne)
  · intro c hc
    exact jsMaxList_ge (List.mem_map.mpr ⟨c, hc, rfl⟩)
  · intro t' ht' hid'
    rw [fix_eq_of_parents hbranch] at ht'
    rcases List.mem_append.mp ht' with ht' | ht'
    · obtain ⟨i', pid', _, rfl⟩ := mem_createdParents.mp ht'
      rw [mkMissingParent_taskDataId] at hid'
      subst hid'
      exact mkMissingParent_index_irrel hchildne i' i
    · obtain ⟨u, hu, rfl⟩ := List.mem_map.mp ht'
      rw [markSummary_eq] at hid'
      exact absurd hid' (hnone u hu)
  · intro u hu hup
    rw [fix_eq_of_parents hbranch]
    refine List.mem_append.mpr (Or.inr (List.mem_map.mpr ⟨u, hu, ?_⟩))
    rw [markSummary_eq]

/-- Child task referencing the nonexistent parent id `"zzz"`; it also has a
child of its own (counterexample input for C1's "unchanged" clause). -/
def c1Child : TaskData :=
  { taskDataId := "c", taskName := "Design work", parentTask := some "zzz",
    startDate := 100, finishDate := 200 }

/-- Grandchild task referencing `"c"`. -/
def c1Grand : TaskData :=
  { taskDataId := "d", taskName := "Sub", parentTask := some "c",
    startDate := 120, finishDate := 150 }

/-- **C1 counterexample.**  The referencing child task `c1Child` is NOT left
unchanged in the output: because it has a child of its own it is re-marked
with `isSummaryTask := true`, so the original record is absent from the
builder's output. -/
theorem claim_C1_counterexample :
    c1Child ∉ fixHierarchyIssues [c1Child, c1Grand]
    ∧ { c1Child with isSummaryTask := true } ∈ fixHierarchyIssues [c1Child, c1Grand]
    ∧ "zzz" ∈ missingParentIds [c1Child, c1Grand] :=
  ⟨by decide, by decide, by decide⟩

/-- Witness for `claim_C1_missing_parent_synthesis` at a concrete input. -/
theorem claim_C1_witness :
    ∃ t ∈ fixHierarchyIssues [c1Child, c1Grand],
      t.taskDataId = "zzz" ∧ t.isSummaryTask = true ∧ t.parentTask = none := by
  obtain ⟨t, ht, h1, h2, h3, _⟩ :=
    claim_C1_missing_parent_synthesis [c1Child, c1Grand] "zzz" (by decide)
  exact ⟨t, ht, h1, h2, h3⟩

/-! ## C7: sibling ordering -/

theorem char_toNat_inj {a b : Char} (h : a.toNat = b.toNat) : a = b := by
  apply Char.ext
  unfold Char.toNat at h
  exact UInt32.toNat.inj h

theorem charListCompare_eq_zero : ∀ {l1 l2 : List Char}, charListCompare l1 l2 = 0 ↔ l1 = l2 := by
  intro l1
  induction l1 with
  | nil => intro l2; cases l2 <;> simp [charListCompare]
  | cons c cs ih =>
    intro l2
    cases l2 with
    | nil => simp [charListCompare]
    | cons d ds =>
      simp only [charListCompare]
      by_cases h1 : c.toNat < d.toNat
      · rw [if_pos h1]
        constructor
        · intro h; exact absurd h (by decide)
        · intro h
          injection h with hc _
          subst hc
          exact absurd h1 (lt_irrefl c.toNat)
      · rw [if_neg h1]
        by_cases h2 : d.toNat < c.toNat
        · rw [if_pos h2]
          constructor
          · intro h; exact absurd h (by decide)
          · intro h
            injection h with hc _
            subst hc
            exact absurd h2 (lt_irrefl c.toNat)
        · rw [if_neg h2]
          have hcd : c = d := char_toNat_inj (Nat.le_antisymm (Nat.le_of_not_lt h2) (Nat.le_of_not_lt h1))
          subst hcd
          rw [ih]
          simp

theorem localeCompare_eq_zero {a b : String} : localeCompare a b = 0 ↔ a = b := by
  rw [localeCompare, charListCompare_eq_zero]
  constructor
  · intro h
    cases a
    cases b
    exact congrArg String.mk h
  · intro h
    rw [h]

/-- **C7 (amended).**  Sibling/root ordering: ascending by `taskIndex` when
both sides define one — with equal indices yielding a comparator tie (0),
NOT resolved by id; the id comparison is used only when at least one side
lacks `taskIndex`, and there a tie occurs exactly on equal ids.  The
comparator is total as an integer ordering, and the (stable) sort leaves
equal-index siblings in input order. -/
theorem claim_C7_sibling_order (a b : TaskData) :
    (∀ i j : Int, a.taskIndex = some i → b.taskIndex = some j →
        ((cmpTasks a b < 0 ↔ i < j) ∧ (cmpTasks a b = 0 ↔ i = j)))
    ∧ ((a.taskIndex = none ∨ b.taskIndex = none) →
        cmpTasks a b = localeCompare a.taskDataId b.taskDataId)
    ∧ ((a.taskIndex = none ∨ b.taskIndex = none) →
        (cmpTasks a b = 0 ↔ a.taskDataId = b.taskDataId))
    ∧ (cmpTasks a b < 0 ∨ cmpTasks a b = 0 ∨ 0 < cmpTasks a b) := by
  have hfall : (a.taskIndex = none ∨ b.taskIndex = none) →
      cmpTasks a b = localeCompare a.taskDataId b.taskDataId := by
    rintro (h | h)
    · simp [cmpTasks, h]
    · cases ha : a.taskIndex <;> simp [cmpTasks, h, ha]
  refine ⟨?_, hfall, ?_, lt_trichotomy (cmpTasks a b) 0⟩
  · intro i j hi hj
    simp only [cmpTasks, hi, hj]
    omega
  · intro h
    rw [hfall h, localeCompare_eq_zero]

/-- Sibling with the larger id but the same sort key (counterexample input). -/
def c7First : TaskData := { taskDataId := "b", taskIndex := some 1 }

/-- Sibling with the smaller id and the same sort key. -/
def c7Second : TaskData := { taskDataId := "a", taskIndex := some 1 }

/-- **C7 counterexample.**  Two roots with equal defined sort keys and ids in
descending order: the comparator reports a tie (`0`) instead of falling back
to the id comparison, and the stable sort leaves them in input order — the
claim's id-resolution would have produced `[c7Second, c7First]`. -/
theorem claim_C7_counterexample :
    cmpTasks c7First c7Second = 0
    ∧ localeCompare c7Second.taskDataId c7First.taskDataId = -1
    ∧ sortTasksRespectingHierarchy [c7First, c7Second] = [c7First, c7Second] := by
  refine ⟨by decide, by decide, ?_⟩
  unfold sortTasksRespectingHierarchy
  have h1 : ([c7First, c7Second].filter fun t => !strTruthy t.parentTask)
      = [c7First, c7Second] := by decide
  have h2 : ∀ s, sortedChildrenOf [c7First, c7Second] s = [] := by
    intro s
    unfold sortedChildrenOf
    have hf : ([c7First, c7Second].filter
        fun t => strTruthy t.parentTask && t.parentTask = some s) = [] := by
      simp [c7First, c7Second, strTruthy, List.filter]
    rw [hf, List.mergeSort_nil]
  rw [h1, List.mergeSort_of_sorted (by decide)]
  simp [addTaskAndChildren, h2]

/-! ## C8: geometry scaling -/

/-- **C8.**  For a task inside the timeline bounds and any scale factor
`k > 0`: scaling the total timeline width by `k` scales the computed left
offset by exactly `k`; it scales the computed bar width by exactly `k`
whenever the unclamped width clears the 20px floor at both scales; and the
computed width is never below 20px. -/
theorem calculateTaskPosition_fst (task : TaskData) (st en : Int) (w : ℚ) :
    (calculateTaskPosition task st en w).1
      = ((task.startDate : ℚ) - (st : ℚ)) / ((en : ℚ) - (st : ℚ)) * w := rfl

theorem calculateTaskPosition_snd (task : TaskData) (st en : Int) (w : ℚ) :
    (calculateTaskPosition task st en w).2
      = max (unclampedWidth task st en w) 20 := rfl

theorem claim_C8_width_scaling (task : TaskData) (timelineStart timelineEnd : Int)
    (w k : ℚ)
    (hin1 : timelineStart ≤ task.startDate) (hin2 : task.finishDate ≤ timelineEnd)
    (hbounds : timelineStart < timelineEnd) (hk : 0 < k) :
    (calculateTaskPosition task timelineStart timelineEnd (k * w)).1
        = k * (calculateTaskPosition task timelineStart timelineEnd w).1
    ∧ (20 ≤ unclampedWidth task timelineStart timelineEnd w →
        20 ≤ unclampedWidth task timelineStart timelineEnd (k * w) →
        (calculateTaskPosition task timelineStart timelineEnd (k * w)).2
          = k * (calculateTaskPosition task timelineStart timelineEnd w).2)
    ∧ 20 ≤ (calculateTaskPosition task timelineStart timelineEnd w).2 := by
  refine ⟨?_, ?_, ?_⟩
  · rw [calculateTaskPosition_fst, calculateTaskPosition_fst]
    ring
  · intro h1 h2
    rw [calculateTaskPosition_snd, calculateTaskPosition_snd,
      max_eq_left h2, max_eq_left h1]
    unfold unclampedWidth
    ring
  · rw [calculateTaskPosition_snd]
    exact le_max_right _ _

/-- One-day task inside January-2025-style bounds (C8 witness input). -/
def c8Task : TaskData := { taskDataId := "g", startDate := 0, finishDate := 86400000 }

/-- Witness for `claim_C8_width_scaling` at a concrete input
(bounds = ±7 days, width 900px, factor 2). -/
theorem claim_C8_witness :
    (calculateTaskPosition c8Task (-604800000) 604800000 (2 * 900)).1
        = 2 * (calculateTaskPosition c8Task (-604800000) 604800000 900).1
    ∧ 20 ≤ (calculateTaskPosition c8Task (-604800000) 604800000 900).2 := by
  obtain ⟨h1, _, h3⟩ := claim_C8_width_scaling c8Task (-604800000) 604800000 900 2
    (by decide) (by decide) (by decide) (by norm_num)
  exact ⟨h1, h3⟩

/-! ## C9: hierarchy cache key -/

/-- **C9 (amended).**  The hierarchy cache key is a function of the ordered
task-id list and the (sorted) expansion-id list alone: two task lists with
identical id sequences produce identical keys regardless of any other task
fields, so the key cannot distinguish content-only data changes; and
distinct inputs may collide when ids contain the separator (see the
counterexample), so the key does not change "iff" the inputs change. -/
theorem claim_C9_cache_key (tasks1 tasks2 : List TaskData) (expandedSorted : List String)
    (h : tasks1.map (fun t => t.taskDataId) = tasks2.map (fun t => t.taskDataId)) :
    generateHierarchyCacheKey tasks1 expandedSorted
      = generateHierarchyCacheKey tasks2 expandedSorted := by
  unfold generateHierarchyCacheKey
  have hlen : tasks1.length = tasks2.length := by
    simpa using congrArg List.length h
  rw [h, hlen]

/-- Task with a pipe character in its id. -/
def c9PipeA : TaskData := { taskDataId := "a|b" }

/-- Companion task of `c9PipeA`. -/
def c9PipeB : TaskData := { taskDataId := "c" }

/-- Alternative first task. -/
def c9PipeC : TaskData := { taskDataId := "a" }

/-- Alternative second task with a pipe character in its id. -/
def c9PipeD : TaskData := { taskDataId := "b|c" }

/-- **C9 counterexample.**  Two different task sets (different id lists, same
length) produce the same cache key, so the key does NOT change whenever the
input task set changes: a stale cached tree can be served across this
change. -/
theorem claim_C9_counterexample :
    generateHierarchyCacheKey [c9PipeA, c9PipeB] []
        = generateHierarchyCacheKey [c9PipeC, c9PipeD] []
    ∧ [c9PipeA, c9PipeB].map (fun t => t.taskDataId)
        ≠ [c9PipeC, c9PipeD].map (fun t => t.taskDataId) :=
  ⟨by decide, by decide⟩

/-- Task record before a content-only edit. -/
def c9ContentOld : TaskData := { taskDataId := "a", taskName := "old", startDate := 0 }

/-- The same task id after a content-only edit. -/
def c9ContentNew : TaskData := { taskDataId := "a", taskName := "new", startDate := 999 }

/-- Witness for `claim_C9_cache_key`: a content-only edit leaves the key
unchanged. -/
theorem claim_C9_witness :
    generateHierarchyCacheKey [c9ContentOld] ["a"]
      = generateHierarchyCacheKey [c9ContentNew] ["a"] :=
  claim_C9_cache_key [c9ContentOld] [c9ContentNew] ["a"] (by decide)

/-! ## C5: flatten visibility and order -/

/-- `InTreeAnc h anc n`: node value `n` occurs in the subtree rooted at `h`,
and `anc` is the list of ids of its proper ancestors inside that subtree
(top-down, starting with `h` itself when `n` is deeper). -/
inductive InTreeAnc : Hier → List String → Hier → Prop where
  | refl (h : Hier) : InTreeAnc h [] h
  | step {h c : Hier} {anc : List String} {n : Hier} :
      c ∈ h.children → InTreeAnc c anc n →
      InTreeAnc h (h.task.taskDataId :: anc) n

/-- `InForestAnc F anc n`: node value `n` occurs in the forest `F` with
proper-ancestor id list `anc`. -/
def InForestAnc (F : List Hier) (anc : List String) (n : Hier) : Prop :=
  ∃ h ∈ F, InTreeAnc h anc n

theorem mem_flattenMany {exp : Finset String} {F : List Hier} {n : Hier} :
    n ∈ flattenMany exp F ↔ ∃ h ∈ F, n ∈ flattenOne exp h := by
  induction F with
  | nil => simp [flattenMany]
  | cons h hs ih => simp [flattenMany, ih]

theorem mem_flattenOne {exp : Finset String} {h n : Hier} :
    n ∈ flattenOne exp h
      ↔ n = h ∨ (h.task.taskDataId ∈ exp ∧ ∃ c ∈ h.children, n ∈ flattenOne exp c) := by
  obtain ⟨t, lvl, cs, vis⟩ := h
  show n ∈ flattenOne exp (.mk t lvl cs vis) ↔ _
  rw [flattenOne]
  by_cases hcond : t.taskDataId ∈ exp ∧ 0 < cs.length
  · rw [if_pos hcond]
    simp only [List.mem_cons, mem_flattenMany, Hier.task, Hier.children]
    constructor
    · rintro (rfl | ⟨c, hc, hn⟩)
      · exact Or.inl rfl
      · exact Or.inr ⟨hcond.1, c, hc, hn⟩
    · rintro (rfl | ⟨_, c, hc, hn⟩)
      · exact Or.inl rfl
      · exact Or.inr ⟨c, hc, hn⟩
  · rw [if_neg hcond]
    simp only [List.mem_cons, List.not_mem_nil, or_false, Hier.task, Hier.children]
    constructor
    · exact Or.inl
    · rintro (rfl | ⟨hexp, c, hc, hn⟩)
      · rfl
      · exact absurd ⟨hexp, List.length_pos.mpr (List.ne_nil_of_mem hc)⟩ hcond

theorem flattenOne_of_anc (exp : Finset String) {h : Hier} {anc : List String} {n : Hier}
    (hanc : InTreeAnc h anc n) (hall : ∀ a ∈ anc, a ∈ exp) : n ∈ flattenOne exp h := by
  induction hanc with
  | refl => exact mem_flattenOne.mpr (Or.inl rfl)
  | step hc _ ih =>
    refine mem_flattenOne.mpr (Or.inr ⟨hall _ (List.mem_cons_self _ _), _, hc, ?_⟩)
    exact ih fun a ha => hall a (List.mem_cons_of_mem _ ha)

theorem flattenOne_anc_of_mem (exp : Finset String) :
    ∀ (N : ℕ) (h n : Hier), sizeOf h ≤ N → n ∈ flattenOne exp h →
      ∃ anc, InTreeAnc h anc n ∧ ∀ a ∈ anc, a ∈ exp := by
  intro N
  induction N with
  | zero =>
    intro h n hsz _
    obtain ⟨t, lvl, cs, vis⟩ := h
    simp only [Hier.mk.sizeOf_spec] at hsz
    omega
  | succ N ih =>
    intro h n hsz hn
    obtain ⟨t, lvl, cs, vis⟩ := h
    rcases mem_flattenOne.mp hn with rfl | ⟨hexp, c, hc, hn'⟩
    · exact ⟨[], InTreeAnc.refl _, by simp⟩
    · have hlt : sizeOf c ≤ N := by
        have h1 := List.sizeOf_lt_of_mem (by simpa [Hier.children] using hc)
        simp only [Hier.mk.sizeOf_spec] at hsz
        omega
      obtain ⟨anc, hanc, hall⟩ := ih c n hlt hn'
      refine ⟨_, InTreeAnc.step hc hanc, ?_⟩
      intro a ha
      rcases List.mem_cons.mp ha with rfl | ha
      · exact hexp
      · exact hall a ha

theorem flattenOne_visibility (exp : Finset String) (h n : Hier) :
    n ∈ flattenOne exp h ↔ ∃ anc, InTreeAnc h anc n ∧ ∀ a ∈ anc, a ∈ exp :=
  ⟨flattenOne_anc_of_mem exp (sizeOf h) h n (le_refl _),
   fun ⟨_, hanc, hall⟩ => flattenOne_of_anc exp hanc hall⟩

theorem flattenOne_cons_of_expanded {exp : Finset String} {t : TaskData} {lvl : ℕ}
    {cs : List Hier} {vis : Bool} (hexp : t.taskDataId ∈ exp) (hne : 0 < cs.length) :
    flattenOne exp (Hier.mk t lvl cs vis)
      = Hier.mk t lvl cs vis :: flattenMany exp cs := by
  rw [flattenOne, if_pos ⟨hexp, hne⟩]

theorem flattenMany_split (exp : Finset String) {cs : List Hier} {c : Hier} (hc : c ∈ cs) :
    ∃ l1 l2, flattenMany exp cs = l1 ++ flattenOne exp c ++ l2 := by
  induction cs with
  | nil => cases hc
  | cons h hs ih =>
    rcases List.mem_cons.mp hc with rfl | hc'
    · exact ⟨[], flattenMany exp hs, rfl⟩
    · obtain ⟨l1, l2, heq⟩ := ih hc'
      exact ⟨flattenOne exp h ++ l1, l2, by rw [flattenMany, heq]; simp⟩

theorem flattenOne_infix (exp : Finset String) :
    ∀ (N : ℕ) (h n : Hier), sizeOf h ≤ N → n ∈ flattenOne exp h →
      ∃ pre post, flattenOne exp h = pre ++ flattenOne exp n ++ post := by
  intro N
  induction N with
  | zero =>
    intro h n hsz _
    obtain ⟨t, lvl, cs, vis⟩ := h
    simp only [Hier.mk.sizeOf_spec] at hsz
    omega
  | succ N ih =>
    intro h n hsz hn
    obtain ⟨t, lvl, cs, vis⟩ := h
    rcases mem_flattenOne.mp hn with rfl | ⟨hexp, c, hc, hn'⟩
    · exact ⟨[], [], by simp⟩
    · have hcs : c ∈ cs := by simpa [Hier.children] using hc
      have hlt : sizeOf c ≤ N := by
        have h1 := List.sizeOf_lt_of_mem hcs
        simp only [Hier.mk.sizeOf_spec] at hsz
        omega
      obtain ⟨pre, post, heq⟩ := ih c n hlt hn'
      obtain ⟨l1, l2, hsplit⟩ := flattenMany_split exp hcs
      refine ⟨Hier.mk t lvl cs vis :: l1 ++ pre, post ++ l2, ?_⟩
      rw [flattenOne_cons_of_expanded (by simpa [Hier.task] using hexp)
        (List.length_pos.mpr (List.ne_nil_of_mem hcs)), hsplit, heq]
      simp

theorem flattenMany_infix {exp : Finset String} {F : List Hier} {n : Hier}
    (hn : n ∈ flattenMany exp F) :
    ∃ pre post, flattenMany exp F = pre ++ flattenOne exp n ++ post := by
  obtain ⟨h, hF, hn'⟩ := mem_flattenMany.mp hn
  obtain ⟨l1, l2, hsplit⟩ := flattenMany_split exp hF
  obtain ⟨p1, p2, heq⟩ := flattenOne_infix exp (sizeOf h) h n (le_refl _) hn'
  exact ⟨l1 ++ p1, p2 ++ l2, by rw [hsplit, heq]; simp⟩

/-- **C5.**  For every forest of `TaskHierarchy` nodes and every expansion
set: (1) every root appears in the flatten output regardless of expansion
state; (2) a node appears in the output iff it occurs in the forest with
every proper ancestor's id a member of the expansion set; and (3) the output
is depth-first: an emitted expanded parent appears at a strictly earlier
index than each of its children. -/
theorem claim_C5_flatten_visibility (exp : Finset String) (F : List Hier) :
    (∀ h ∈ F, h ∈ flattenMany exp F)
    ∧ (∀ n, n ∈ flattenMany exp F
        ↔ ∃ anc, InForestAnc F anc n ∧ ∀ a ∈ anc, a ∈ exp)
    ∧ ∀ p c, p ∈ flattenMany exp F → c ∈ p.children → p.task.taskDataId ∈ exp →
        ∃ i j, i < j ∧ (flattenMany exp F).get? i = some p
          ∧ (flattenMany exp F).get? j = some c := by
  refine ⟨?_, ?_, ?_⟩
  · intro h hF
    exact mem_flattenMany.mpr ⟨h, hF, mem_flattenOne.mpr (Or.inl rfl)⟩
  · intro n
    rw [mem_flattenMany]
    constructor
    · rintro ⟨h, hF, hn⟩
      obtain ⟨anc, hanc, hall⟩ := (flattenOne_visibility exp h n).mp hn
      exact ⟨anc, ⟨h, hF, hanc⟩, hall⟩
    · rintro ⟨anc, ⟨h, hF, hanc⟩, hall⟩
      exact ⟨h, hF, (flattenOne_visibility exp h n).mpr ⟨anc, hanc, hall⟩⟩
  · intro p c hp hc hexp
    obtain ⟨pre, post, heq⟩ := flattenMany_infix hp
    obtain ⟨t, lvl, cs, vis⟩ := p
    have hcs : c ∈ cs := by simpa [Hier.children] using hc
    have hfp : flattenOne exp (Hier.mk t lvl cs vis)
        = Hier.mk t lvl cs vis :: flattenMany exp cs :=
      flattenOne_cons_of_expanded (by simpa [Hier.task] using hexp)
        (List.length_pos.mpr (List.ne_nil_of_mem hcs))
    have hcmem : c ∈ flattenMany exp cs :=
      mem_flattenMany.mpr ⟨c, hcs, mem_flattenOne.mpr (Or.inl rfl)⟩
    obtain ⟨k, hk⟩ := List.get?_of_mem hcmem
    have hklt : k < (flattenMany exp cs).length := by
      rcases List.get?_eq_some.mp hk with ⟨hlt, _⟩
      exact hlt
    refine ⟨pre.length, pre.length + 1 + k, by omega, ?_, ?_⟩
    · rw [heq, hfp, List.append_assoc,
        List.get?_append_right (le_refl pre.length), Nat.sub_self, List.cons_append]
      rfl
    · rw [heq, hfp, List.append_assoc,
        List.get?_append_right (by omega : pre.length ≤ pre.length + 1 + k)]
      have h2 : pre.length + 1 + k - pre.length = k + 1 := by omega
      rw [h2, List.cons_append]
      show (flattenMany exp cs ++ post).get? k = some c
      rw [List.get?_append hklt]
      exact hk

/-! ## C10: orphans are silently dropped by the tree builder/flattener -/

theorem deduplicateTasks_subset {tasks : List TaskData} :
    ∀ t ∈ deduplicateTasks tasks, t ∈ tasks := by
  have aux : ∀ (l acc : List TaskData),
      ∀ t ∈ l.foldl (fun acc t =>
        if acc.any (fun u => u.taskDataId = t.taskDataId) then acc else acc ++ [t]) acc,
        t ∈ acc ∨ t ∈ l := by
    intro l
    induction l with
    | nil => intro acc t ht; exact Or.inl ht
    | cons a l ih =>
      intro acc t ht
      rw [List.foldl_cons] at ht
      rcases ih _ t ht with h | h
      · by_cases ha : acc.any (fun u => u.taskDataId = a.taskDataId)
        · rw [if_pos ha] at h
          exact Or.inl h
        · rw [if_neg ha] at h
          rcases List.mem_append.mp h with h | h
          · exact Or.inl h
          · exact Or.inr (List.mem_cons.mpr (Or.inl (List.mem_singleton.mp h)))
      · exact Or.inr (List.mem_cons_of_mem a h)
  intro t ht
  rcases aux tasks [] t ht with h | h
  · cases h
  · exact h

theorem buildHierarchy_eq (tasks : List TaskData) :
    buildHierarchy tasks
      = ((deduplicateTasks tasks).filter fun t => !strTruthy t.parentTask).map
          (fun t => buildTaskHierarchy (deduplicateTasks tasks)
            ((deduplicateTasks tasks).length + 1) t 0) := rfl

/-- Every node emitted from a built subtree is either the subtree's own root
task or carries a parent pointer that strictly matches some task id of the
deduplicated working set. -/
theorem build_node_shape (uniq : List TaskData) (exp : Finset String) :
    ∀ (fuel : ℕ) (t : TaskData) (lvl : ℕ) (n : Hier), t ∈ uniq →
      n ∈ flattenOne exp (buildTaskHierarchy uniq fuel t lvl) →
      n.task = t ∨ ∃ u ∈ uniq, n.task.parentTask = some u.taskDataId := by
  intro fuel
  induction fuel with
  | zero =>
    intro t lvl n _ hn
    rcases mem_flattenOne.mp hn with rfl | ⟨_, c, hc, _⟩
    · exact Or.inl rfl
    · simp [buildTaskHierarchy, Hier.children] at hc
  | succ fuel ih =>
    intro t lvl n ht hn
    rcases mem_flattenOne.mp hn with rfl | ⟨_, c', hc', hn'⟩
    · exact Or.inl rfl
    · simp only [buildTaskHierarchy, Hier.children, List.mem_map] at hc'
      obtain ⟨c, hcf, rfl⟩ := hc'
      rw [List.mem_filter] at hcf
      obtain ⟨hcu, hcp⟩ := hcf
      have hcp' : c.parentTask = some t.taskDataId := by simpa using hcp
      rcases ih c (lvl + 1) n hcu hn' with h | h
      · exact Or.inr ⟨t, ht, by rw [h]; exact hcp'⟩
      · exact Or.inr h

/-- **C10.**  A task whose `parentTask` is non-empty but matches no task id
in the input list appears in no flatten output of the built hierarchy, for
any expansion set: roots are exactly the tasks with a falsy (`undefined` or
empty) `parentTask`, children are found only by exact parent-id match, so
the orphan is silently dropped from every rendered row list. -/
theorem claim_C10_orphan_dropped (tasks : List TaskData) (exp : Finset String)
    (orphan : TaskData) (p : String)
    (hpar : orphan.parentTask = some p) (hne : p ≠ "")
    (hnomatch : ∀ u ∈ tasks, u.taskDataId ≠ p) :
    orphan ∉ (flattenMany exp (buildHierarchy tasks)).map Hier.task := by
  intro hmem
  obtain ⟨n, hn, htask⟩ := List.mem_map.mp hmem
  obtain ⟨r, hr, hnr⟩ := mem_flattenMany.mp hn
  rw [buildHierarchy_eq] at hr
  obtain ⟨root, hrootf, rfl⟩ := List.mem_map.mp hr
  rw [List.mem_filter] at hrootf
  obtain ⟨hrootu, hrootp⟩ := hrootf
  rcases build_node_shape (deduplicateTasks tasks) exp _ root 0 n hrootu hnr with h | ⟨u, hu, hup⟩
  · have : strTruthy orphan.parentTask = false := by
      rw [← htask, h]
      simpa using hrootp
    rw [hpar] at this
    simp [strTruthy] at this
    exact hne this
  · rw [htask, hpar] at hup
    exact hnomatch u (deduplicateTasks_subset u hu) (Option.some.inj hup.symm)

/-- An orphan task referencing the absent id `"ghost"` (C10 witness input). -/
def c10Orphan : TaskData := { taskDataId := "o", parentTask := some "ghost" }

/-- Witness for `claim_C10_orphan_dropped` at a concrete input. -/
theorem claim_C10_witness :
    c10Orphan ∉ (flattenMany ∅ (buildHierarchy [c10Orphan])).map Hier.task :=
  claim_C10_orphan_dropped [c10Orphan] ∅ c10Orphan "ghost" rfl (by decide) (by decide)

/-! ## C6: toggleExpand collapses whole subtrees -/

/-- Parent-chain reachability in at most `n` steps (at least one step):
`ReachLe tasks n p x` holds when `x` is reachable from `p` along 1..n
child edges. -/
def ReachLe (tasks : List TaskData) : ℕ → String → String → Prop
  | 0, _, _ => False
  | n + 1, p, x =>
    ∃ t ∈ tasks, t.parentTask = some p ∧ (t.taskDataId = x ∨ ReachLe tasks n t.taskDataId x)

theorem mem_collapseDescendants (tasks : List TaskData) :
    ∀ (n : ℕ) (pid : String) (exp : Finset String) (x : String),
      x ∈ collapseDescendants tasks n pid exp
        ↔ x ∈ exp ∧ ¬ ReachLe tasks n pid x := by
  intro n
  induction n with
  | zero => intro pid exp x; simp [collapseDescendants, ReachLe]
  | succ n ih =>
    have aux : ∀ (l : List TaskData) (exp : Finset String) (x : String),
        x ∈ l.foldl
            (fun e c => collapseDescendants tasks n c.taskDataId (e.erase c.taskDataId)) exp
          ↔ x ∈ exp ∧ ∀ c ∈ l, ¬(c.taskDataId = x ∨ ReachLe tasks n c.taskDataId x) := by
      intro l
      induction l with
      | nil => simp
      | cons c cs ihl =>
        intro exp x
        rw [List.foldl_cons, ihl, ih, Finset.mem_erase]
        constructor
        · rintro ⟨⟨⟨hne, hx⟩, hnr⟩, hrest⟩
          refine ⟨hx, ?_⟩
          intro c' hc'
          rcases List.mem_cons.mp hc' with rfl | hc'
          · rintro (heq | hr)
            · exact hne heq.symm
            · exact hnr hr
          · exact hrest c' hc'
        · rintro ⟨hx, hall⟩
          have hc := hall c (List.mem_cons_self c cs)
          refine ⟨⟨⟨?_, hx⟩, fun hr => hc (Or.inr hr)⟩, ?_⟩
          · intro heq
            exact hc (Or.inl heq.symm)
          · intro c' hc'
            exact hall c' (List.mem_cons_of_mem c hc')
    intro pid exp x
    rw [collapseDescendants, aux]
    constructor
    · rintro ⟨hx, hall⟩
      refine ⟨hx, ?_⟩
      rintro ⟨t, ht, hp, hor⟩
      exact hall t (List.mem_filter.mpr ⟨ht, by simp [hp]⟩) hor
    · rintro ⟨hx, hnr⟩
      refine ⟨hx, ?_⟩
      intro c hc hor
      rw [List.mem_filter] at hc
      exact hnr ⟨c, hc.1, by simpa using hc.2, hor⟩

theorem ReachLe_mono (tasks : List TaskData) :
    ∀ {n m : ℕ}, n ≤ m → ∀ {p x : String},
      ReachLe tasks n p x → ReachLe tasks m p x := by
  intro n
  induction n with
  | zero => intro m _ p x h; exact h.elim
  | succ n ih =>
    intro m hm p x h
    cases m with
    | zero => omega
    | succ m =>
      obtain ⟨t, ht, hp, hor⟩ := h
      refine ⟨t, ht, hp, ?_⟩
      rcases hor with heq | hr
      · exact Or.inl heq
      · exact Or.inr (ih (by omega) hr)

theorem childOf_reachLe {tasks : List TaskData} {b c : String}
    (h : childOf tasks b c) : ReachLe tasks 1 b c := by
  obtain ⟨t, ht, hp, hid⟩ := h
  exact ⟨t, ht, hp, Or.inl hid⟩

theorem ReachLe_snoc (tasks : List TaskData) :
    ∀ {n : ℕ} {a b c : String},
      ReachLe tasks n a b → childOf tasks b c → ReachLe tasks (n + 1) a c := by
  intro n
  induction n with
  | zero => intro a b c h _; exact h.elim
  | succ n ih =>
    intro a b c h hbc
    obtain ⟨t, ht, hp, hor⟩ := h
    refine ⟨t, ht, hp, Or.inr ?_⟩
    rcases hor with heq | hr
    · rw [heq]
      exact ReachLe_mono tasks (by omega) (childOf_reachLe hbc)
    · exact ih hr hbc

theorem ReachLe_to_transGen (tasks : List TaskData) :
    ∀ {n : ℕ} {p x : String},
      ReachLe tasks n p x → Relation.TransGen (childOf tasks) p x := by
  intro n
  induction n with
  | zero => intro p x h; exact h.elim
  | succ n ih =>
    intro p x h
    obtain ⟨t, ht, hp, hor⟩ := h
    rcases hor with heq | hr
    · exact Relation.TransGen.single ⟨t, ht, hp, heq⟩
    · exact Relation.TransGen.head ⟨t, ht, hp, rfl⟩ (ih hr)

/-- With a rank certificate (a strict height function bounded by the task
count — available exactly when the parent graph is acyclic, which is also
when the source's unbounded recursion terminates), every transitive
descendant is reachable within `tasks.length + 1` steps. -/
theorem transGen_to_reachLe (tasks : List TaskData) (rank : String → ℕ)
    (hrank : ∀ p c, childOf tasks p c → rank p < rank c)
    (hbnd : ∀ t ∈ tasks, rank t.taskDataId ≤ tasks.length)
    {a b : String} (h : Relation.TransGen (childOf tasks) a b) :
    ReachLe tasks (tasks.length + 1) a b := by
  have key : ∀ {b : String}, Relation.TransGen (childOf tasks) a b →
      ∃ m, ReachLe tasks m a b ∧ rank a + m ≤ rank b := by
    intro b h
    induction h with
    | single hab =>
      exact ⟨1, childOf_reachLe hab, by have := hrank _ _ hab; omega⟩
    | tail _ hbc ih =>
      obtain ⟨m, hm, hr⟩ := ih
      exact ⟨m + 1, ReachLe_snoc tasks hm hbc, by have := hrank _ _ hbc; omega⟩
  obtain ⟨m, hm, hr⟩ := key h
  have hb : ∃ t ∈ tasks, t.taskDataId = b := by
    cases h with
    | single hab =>
      obtain ⟨t, ht, _, hid⟩ := hab
      exact ⟨t, ht, hid⟩
    | tail _ hbc =>
      obtain ⟨t, ht, _, hid⟩ := hbc
      exact ⟨t, ht, hid⟩
  obtain ⟨t, ht, hid⟩ := hb
  have := hbnd t ht
  rw [hid] at this
  exact ReachLe_mono tasks (by omega) hm

/-- **C6.**  (Under a rank certificate for the parent graph — the inputs on
which the source's unbounded `collapseDescendants` recursion terminates.)
If the toggled id is currently expanded, `toggleExpand` removes it and
exactly the transitive descendants of it from the expansion set (so a later
re-expansion starts with every descendant collapsed); if it is not expanded,
`toggleExpand` adds only that id. -/
theorem claim_C6_toggle_expand (tasks : List TaskData) (exp : Finset String)
    (taskId : String) (rank : String → ℕ)
    (hrank : ∀ p c, childOf tasks p c → rank p < rank c)
    (hbnd : ∀ t ∈ tasks, rank t.taskDataId ≤ tasks.length) :
    (taskId ∈ exp → ∀ x,
        (x ∈ toggleExpand tasks exp taskId
          ↔ x ∈ exp ∧ x ≠ taskId ∧ ¬ Relation.TransGen (childOf tasks) taskId x))
    ∧ (taskId ∉ exp → toggleExpand tasks exp taskId = insert taskId exp) := by
  constructor
  · intro hin x
    rw [toggleExpand, if_pos hin, mem_collapseDescendants, Finset.mem_erase]
    constructor
    · rintro ⟨⟨hne, hx⟩, hnr⟩
      exact ⟨hx, hne, fun htg => hnr (transGen_to_reachLe tasks rank hrank hbnd htg)⟩
    · rintro ⟨hx, hne, hntg⟩
      exact ⟨⟨hne, hx⟩, fun hr => hntg (ReachLe_to_transGen tasks hr)⟩
  · intro hnin
    rw [toggleExpand, if_neg hnin]

/-- Child task of `"a"` (C6 witness input). -/
def c6Child : TaskData := { taskDataId := "b", parentTask := some "a" }

/-- Height certificate for the C6 witness graph. -/
def c6Rank : String → ℕ := fun s => if s = "b" then 1 else 0

/-- Witness for `claim_C6_toggle_expand`: collapsing `"a"` also removes the
previously expanded descendant `"b"`. -/
theorem claim_C6_witness :
    "a" ∈ ({"a", "b"} : Finset String)
    ∧ "b" ∉ toggleExpand [c6Child] {"a", "b"} "a" := by
  have hrank : ∀ p c, childOf [c6Child] p c → c6Rank p < c6Rank c := by
    rintro p c ⟨t, ht, hp, hid⟩
    rw [List.mem_singleton] at ht
    subst ht
    have hp' : p = "a" := by simpa [c6Child] using hp.symm
    have hid' : c = "b" := by simpa [c6Child] using hid.symm
    subst hp'
    subst hid'
    decide
  have hbnd : ∀ t ∈ [c6Child], c6Rank t.taskDataId ≤ ([c6Child] : List TaskData).length := by
    intro t ht
    rw [List.mem_singleton] at ht
    subst ht
    decide
  have h := (claim_C6_toggle_expand [c6Child] {"a", "b"} "a" c6Rank hrank hbnd).1
    (by decide) "b"
  refine ⟨by decide, fun hb => ?_⟩
  obtain ⟨_, _, hntg⟩ := h.mp hb
  exact hntg (Relation.TransGen.single ⟨c6Child, List.mem_singleton_self c6Child, rfl, rfl⟩)

/-- Raw record whose parent lookup references its own id (C3 witness input). -/
def c3SelfRecord : RawRecord :=
  { pme_taskdataid := some "s", pme_parenttaskuid := some "s" }

/-- Witness for `claim_C3_no_self_parent` at a concrete input: the
self-referential raw parent is dropped, not kept. -/
theorem claim_C3_witness :
    transformRecord c3SelfRecord 0 0 ∈ fixHierarchyIssues (transformTasks [c3SelfRecord] 0)
    ∧ (transformRecord c3SelfRecord 0 0).parentTask
        ≠ some (transformRecord c3SelfRecord 0 0).taskDataId :=
  ⟨by decide, claim_C3_no_self_parent 0 [c3SelfRecord] _ (by decide)⟩
